import Mathlib

/-!
# Verification of `bipy/core/distance.py`

A shallow embedding of the distance-matrix module: the `DistanceMatrix`
constructor and its `_validate` gate, the delimited-text codec
(`from_file` / `to_file`), label lookup (`__getitem__`), equality
(`__eq__`), the `sample_ids` setter and `random_distance_matrix`.

Modelling conventions:
* Python strings are `List Char`; file streams are lists of lines.
* Python `float` values are modelled by `PyFloat`: exact rationals plus
  the special values `inf`, `ninf` and `nan`, with IEEE comparison
  semantics (`nan` compares unequal to everything, `inf == inf`).
  `str(float)` is modelled by an exact decimal printer; the finite
  precision of the real printer is outside the scope of the embedding,
  so theorems about print/parse round-trips carry the fidelity of the
  scalar printer as an explicit hypothesis.
* Recursions that walk a string while skipping several characters at a
  time use an explicit fuel argument so that every definition reduces
  in the kernel; fuel of `length + 1` is always sufficient.
-/

/-- Python strings, modelled as lists of characters. -/
abbrev Str := List Char

/-- A Python `float` value: an exact finite rational, an infinity, or NaN. -/
inductive PyFloat where
  | fin (q : ℚ)
  | inf
  | ninf
  | nan
deriving DecidableEq

/-- Python `==` on floats: `nan` is unequal to everything, including itself. -/
def pyEq : PyFloat → PyFloat → Bool
  | .fin a, .fin b => decide (a = b)
  | .inf, .inf => true
  | .ninf, .ninf => true
  | _, _ => false

/-- Python `+` on floats (only the finite cases are exercised by the claims). -/
def pyAdd : PyFloat → PyFloat → PyFloat
  | .fin a, .fin b => .fin (a + b)
  | .nan, _ => .nan
  | _, .nan => .nan
  | .inf, .ninf => .nan
  | .ninf, .inf => .nan
  | .inf, _ => .inf
  | _, .inf => .inf
  | .ninf, _ => .ninf
  | _, .ninf => .ninf

/-- Whether a float value is finite (neither infinite nor NaN). -/
def isFiniteFloat : PyFloat → Bool
  | .fin _ => true
  | _ => false

/-- The characters stripped by Python's `str.strip()`. -/
def isPyWs (c : Char) : Bool :=
  c = ' ' || c = '\t' || c = '\n' || c = '\r' || c = '\x0b' || c = '\x0c'

/-- Python `str.lstrip()`. -/
def lstrip (s : Str) : Str := s.dropWhile isPyWs

/-- Python `str.rstrip()`. -/
def rstrip (s : Str) : Str := (s.reverse.dropWhile isPyWs).reverse

/-- Python `str.strip()`. -/
def pyStrip (s : Str) : Str := rstrip (lstrip s)

/-- Python `line.startswith('#')`. -/
def startsHash : Str → Bool
  | '#' :: _ => true
  | _ => false

/-- The decimal digit characters. -/
def digitChar : Nat → Char
  | 0 => '0' | 1 => '1' | 2 => '2' | 3 => '3' | 4 => '4'
  | 5 => '5' | 6 => '6' | 7 => '7' | 8 => '8' | 9 => '9'
  | _ => '?'

/-- Numeric value of a digit character. -/
def digitVal (c : Char) : Nat := c.toNat - 48

def isDigitC (c : Char) : Bool := '0' ≤ c && c ≤ '9'

/-- Fueled decimal rendering of a natural number (`str(int)` in Python).
Fuel `n + 1` is always sufficient. -/
def natCharsF : Nat → Nat → Str
  | 0, _ => []
  | f + 1, n => if n < 10 then [digitChar n] else natCharsF f (n / 10) ++ [digitChar (n % 10)]

/-- Decimal rendering of a natural number, e.g. `natChars 42 = ['4','2']`. -/
def natChars (n : Nat) : Str := natCharsF (n + 1) n

/-- Python `str(n)` for a natural number. -/
def natStr (n : Nat) : Str := natChars n

/-- Decimal reading of a digit string (left inverse of `natChars`). -/
def charsToNat (s : Str) : Nat := s.foldl (fun acc c => acc * 10 + digitVal c) 0

/-- Fueled count of the multiplicity of a factor `p ≥ 2` in `n`. -/
def facCountF (p : Nat) : Nat → Nat → Nat
  | 0, _ => 0
  | f + 1, n => if n % p = 0 && n ≠ 0 && 2 ≤ p then facCountF p f (n / p) + 1 else 0

/-- Multiplicity of factor `p` in `n` (fuel `n` is sufficient since `n / p < n`). -/
def facCount (p n : Nat) : Nat := facCountF p n n

/-- Number of fractional digits used to print a rational with denominator
`d` exactly; denominators without a terminating decimal expansion
(impossible for values coming from binary floats) fall back to 17 digits,
mirroring the finite precision of `str(float)`. -/
def decExponentD (d : Nat) : Nat :=
  let k := max (facCount 2 d) (facCount 5 d)
  if 10 ^ k % d = 0 then max 1 k else 17

/-- Exact decimal digits of the nonnegative rational `n / d`: integer part,
dot, zero-padded fractional part. -/
def decCharsND (n d : Nat) : Str :=
  let k := decExponentD d
  let num := n * 10 ^ k / d
  let ip := num / 10 ^ k
  let fp := num % 10 ^ k
  let fpChars := natChars fp
  natChars ip ++ '.' :: (List.replicate (k - fpChars.length) '0' ++ fpChars)

/-- Model of Python `str(float)` (as used by `np.asarray(vals, dtype=np.str)`
in `to_file`): exact decimal text for finite values, `inf`/`-inf`/`nan` for
the special values.  The sign and magnitude are read off the normalized
numerator and denominator. -/
def formatVal : PyFloat → Str
  | .nan => ['n', 'a', 'n']
  | .inf => ['i', 'n', 'f']
  | .ninf => ['-', 'i', 'n', 'f']
  | .fin q =>
    (match q.num with
     | .negSucc _ => ['-']
     | .ofNat _ => []) ++ decCharsND q.num.natAbs q.den

/-- Longest digit run at the front of a string, and the remainder. -/
def spanDigits (s : Str) : Str × Str := (s.takeWhile isDigitC, s.dropWhile isDigitC)

/-- Build the exact rational value `± n / d` (for `d ≠ 0`), normalized.
The construction uses only structural natural-number arithmetic so that it
evaluates inside the kernel. -/
def qMake (sgn : Bool) (n d : Nat) : ℚ :=
  let g := Nat.gcd n d
  let n2 := n / g
  let d2 := d / g
  let num : Int := if sgn then -(n2 : Int) else (n2 : Int)
  if h : d2 ≠ 0 ∧ num.natAbs.Coprime d2 then ⟨num, d2, h.1, h.2⟩ else 0

/-- Parse the decimal part of a float literal: digits, optional fraction,
optional exponent.  `neg` records a leading minus sign already consumed.
The value `±(ip.fp) × 10^exp` is assembled exactly. -/
def parseDec (neg : Bool) (r : Str) : Option PyFloat :=
  let ipRest := spanDigits r
  let fpRest :=
    match ipRest.2 with
    | '.' :: r2 => spanDigits r2
    | _ => ([], ipRest.2)
  if ipRest.1 = [] ∧ fpRest.1 = [] then none
  else
    let mantNum := charsToNat ipRest.1 * 10 ^ fpRest.1.length + charsToNat fpRest.1
    let mantDen := 10 ^ fpRest.1.length
    match fpRest.2 with
    | [] => some (.fin (qMake neg mantNum mantDen))
    | e :: r3 =>
      if e = 'e' ∨ e = 'E' then
        let expSign :=
          match r3 with
          | '+' :: r4 => (false, r4)
          | '-' :: r4 => (true, r4)
          | r4 => (false, r4)
        let edRest := spanDigits expSign.2
        if edRest.1 = [] ∨ edRest.2 ≠ [] then none
        else
          let ex := charsToNat edRest.1
          some (.fin (if expSign.1 then qMake neg mantNum (mantDen * 10 ^ ex)
            else qMake neg (mantNum * 10 ^ ex) mantDen))
      else none

/-- Model of Python `float(s)`: strip whitespace, optional sign, then either
`inf`/`infinity`/`nan` (case-insensitive) or a decimal literal. -/
def parseVal (s : Str) : Option PyFloat :=
  let t := pyStrip s
  match t with
  | [] => none
  | _ =>
    let signRest :=
      match t with
      | '+' :: r => (false, r)
      | '-' :: r => (true, r)
      | r => (false, r)
    let rl := signRest.2.map Char.toLower
    if rl = ['i', 'n', 'f'] ∨ rl = ['i', 'n', 'f', 'i', 'n', 'i', 't', 'y'] then
      some (if signRest.1 then .ninf else .inf)
    else if rl = ['n', 'a', 'n'] then some .nan
    else parseDec signRest.1 signRest.2

/-- Model of `np.asarray(tokens, dtype='float')`: parse every token or fail. -/
def parseFloats : List Str → Option (List PyFloat)
  | [] => some []
  | t :: ts =>
    match parseVal t, parseFloats ts with
    | some v, some vs => some (v :: vs)
    | _, _ => none

/-- Fueled Python `str.split(sep)` for a nonempty separator: scan left to
right, emitting the accumulated field at each separator occurrence.
Fuel `length + 1` is always sufficient. -/
def pySplitF : Nat → Str → Str → Str → List Str
  | 0, _, s, acc => [acc.reverse ++ s]
  | _ + 1, _, [], acc => [acc.reverse]
  | f + 1, d, c :: rest, acc =>
    if d.isPrefixOf (c :: rest) then
      acc.reverse :: pySplitF f d (rest.drop (d.length - 1)) []
    else
      pySplitF f d rest (c :: acc)

/-- Python `s.split(d)` for nonempty `d` (Python raises on an empty
separator; callers of the embedding always pass a nonempty delimiter). -/
def pySplit (d s : Str) : List Str :=
  if d = [] then [s] else pySplitF (s.length + 1) d s []

/-- Python `d.join(parts)`. -/
def joinD (d : Str) : List Str → Str
  | [] => []
  | [p] => p
  | p :: ps => p ++ d ++ joinD d ps

/-- The distance buffer: a 2D nested list of float values (`np.ndarray`). -/
abbrev Mat := List (List PyFloat)

/-- First component of `data.shape`: the number of rows. -/
def matShape0 (d : Mat) : Nat := d.length

/-- Second component of `data.shape`: the length of the first row. -/
def matShape1 (d : Mat) : Nat := (d.headD []).length

/-- Whether the nested lists form a proper rectangular 2D array.
`np.asarray(data, dtype='float')` in `__init__` raises `ValueError` on
ragged nested input, before `_validate` runs. -/
def rectangular (d : Mat) : Bool := d.all (fun r => r.length = matShape1 d)

/-- Entry access `data[i][j]` (defaults are never exercised in bounds). -/
def ent (d : Mat) (i j : Nat) : PyFloat := (d.getD i []).getD j .nan

/-- Model of `scipy.spatial.distance.is_valid_dm(data)` with the default
`tol = 0`: square, `(D == D.T).all()` and a zero diagonal, under Python
float comparison (so NaN entries break symmetry, infinities do not).
Any shape mismatch makes the check fail. -/
def is_valid_dm (d : Mat) : Bool :=
  decide (matShape0 d = matShape1 d) &&
  (List.range (matShape0 d)).all (fun i =>
    (List.range (matShape0 d)).all (fun j => pyEq (ent d i j) (ent d j i))) &&
  (List.range (matShape0 d)).all (fun i => pyEq (ent d i i) (.fin 0))

/-- The error taxonomy of the module.  The four `dm*` constructors are the
`DistanceMatrixError` messages raised by `_validate` (distinct constructors
model the distinct message texts); the parse constructors are
`MissingHeaderError`, `MissingDataError`, `DistanceMatrixFormatError` (two
distinct messages) and `SampleIDMismatchError`; `coercion` and `value` are
the `ValueError`s raised by numpy conversions; `missingSample` is
`MissingSampleIDError` and `indexError` a numpy `IndexError`. -/
inductive Err where
  | coercion
  | dmSize
  | dmUnique
  | dmStruct
  | dmCount
  | missingHeader
  | missingData (actual expected : Nat)
  | extraRows
  | badRowCount (row : Nat)
  | idMismatch
  | missingSample (id : Str)
  | indexError
  | value
deriving DecidableEq

/-- Model of `DistanceMatrix._validate(data, sample_ids)`: the `if`/`elif`
chain, in source order, returning the first failing check's error. -/
def validate (data : Mat) (ids : List Str) : Option Err :=
  if matShape0 data = 0 ∨ matShape1 data = 0 then some .dmSize
  else if ids.length ≠ ids.dedup.length then some .dmUnique
  else if ¬ is_valid_dm data then some .dmStruct
  else if ids.length ≠ matShape0 data then some .dmCount
  else none

/-- The instance state of a constructed `DistanceMatrix`: the buffer, the
sample-ID tuple and the derived `_sample_index` dictionary (an association
list in insertion order, where a later binding for the same key wins, as in
a Python dict built by comprehension). -/
structure DistanceMatrix where
  data : Mat
  sample_ids : List Str
  sample_index : List (Str × Nat)
deriving DecidableEq

/-- The `(id_, idx)` pairs of `enumerate(list_)` starting at `k`. -/
def idxPairsFrom (k : Nat) : List Str → List (Str × Nat)
  | [] => []
  | a :: t => (a, k) :: idxPairsFrom (k + 1) t

/-- Model of `DistanceMatrix._index_list`: `{id_: idx for idx, id_ in enumerate(list_)}`. -/
def index_list (ids : List Str) : List (Str × Nat) := idxPairsFrom 0 ids

/-- Dictionary lookup where the latest binding of a key wins. -/
def dictGet : List (Str × Nat) → Str → Option Nat
  | [], _ => none
  | p :: rest, k =>
    match dictGet rest k with
    | some v => some v
    | none => if p.1 = k then some p.2 else none

deriving instance DecidableEq for Except

/-- Model of the `DistanceMatrix(data, sample_ids)` constructor: coerce the
buffer (ragged input fails inside `np.asarray`), run `_validate`, and only
on success commit the buffer, the IDs and the rebuilt index as instance
state.  A failure returns an error and no instance. -/
def mkDM (data : Mat) (ids : List Str) : Except Err DistanceMatrix :=
  if rectangular data then
    match validate data ids with
    | some e => .error e
    | none => .ok ⟨data, ids, index_list ids⟩
  else .error .coercion

/-- `DistanceMatrix.redundant_form`: an alias for the buffer. -/
def redundant_form (m : DistanceMatrix) : Mat := m.data

/-- `DistanceMatrix.shape`. -/
def dmShape (m : DistanceMatrix) : Nat × Nat := (matShape0 m.data, matShape1 m.data)

/-- An index argument to `__getitem__`: a string (sample ID) or anything
else, here represented by the integer indexing forwarded to numpy. -/
inductive PyIndex where
  | key (s : Str)
  | pos (i : Int)

/-- Integer row indexing of a numpy 2D array: nonnegative indices in range,
negative indices counted from the end, `IndexError` otherwise. -/
def ndarrayRow (d : Mat) (i : Int) : Except Err (List PyFloat) :=
  if 0 ≤ i then
    if i < (d.length : Int) then .ok (d.getD i.toNat []) else .error .indexError
  else
    if 0 ≤ i + (d.length : Int) then .ok (d.getD (i + (d.length : Int)).toNat [])
    else .error .indexError

/-- Model of `DistanceMatrix.__getitem__`: a string index is looked up in
`_sample_index` (raising `MissingSampleIDError` when absent); any other
index is passed through to `data.__getitem__`. -/
def getitem (m : DistanceMatrix) : PyIndex → Except Err (List PyFloat)
  | .key s =>
    match dictGet m.sample_index s with
    | some i => .ok (m.data.getD i [])
    | none => .error (.missingSample s)
  | .pos i => ndarrayRow m.data i

/-- Model of the `sample_ids` property setter: re-validate against the
existing buffer, then commit the new IDs and the rebuilt index. -/
def setSampleIds (m : DistanceMatrix) (ids : List Str) : Except Err DistanceMatrix :=
  match validate m.data ids with
  | some e => .error e
  | none => .ok ⟨m.data, ids, index_list ids⟩

/-- The attribute surface `__eq__` reads from the compared object: any
Python value, of which only the `shape`, `sample_ids` and `data` attributes
matter; a `none` field models a missing attribute (`AttributeError`). -/
structure PyObj where
  shape : Option (Nat × Nat)
  sample_ids : Option (List Str)
  data : Option Mat

/-- Every `DistanceMatrix` exposes the three attributes. -/
def toPyObj (m : DistanceMatrix) : PyObj :=
  ⟨some (dmShape m), some m.sample_ids, some m.data⟩

/-- Model of `np.array_equal` on 2D float arrays: equal shapes and
element-wise Python float equality. -/
def array_equal (a b : Mat) : Bool :=
  decide (a.length = b.length) &&
  (List.zip a b).all (fun rr =>
    decide (rr.1.length = rr.2.length) &&
    (List.zip rr.1 rr.2).all (fun vv => pyEq vv.1 vv.2))

/-- Model of `DistanceMatrix.__eq__`: compare shape, then sample IDs, then
the buffers via `np.array_equal`; an `AttributeError` while reading `other`
(a missing field) yields `False`.  The function is total — comparison never
raises. -/
def dm_eq (m : DistanceMatrix) (other : PyObj) : Bool :=
  match other.shape with
  | none => false
  | some sh =>
    if dmShape m ≠ sh then false
    else
      match other.sample_ids with
      | none => false
      | some oids =>
        if m.sample_ids ≠ oids then false
        else
          match other.data with
          | none => false
          | some od => array_equal m.data od

/-- Model of `DistanceMatrix._parse_sample_ids`: scan the stream for the
first line that is nonempty after stripping and does not start with `#`,
split it on the delimiter, and return the remaining lines of the stream. -/
def parse_sample_ids (delim : Str) : List Str → Option (List Str × List Str)
  | [] => none
  | l :: rest =>
    let line := pyStrip l
    if line ≠ [] ∧ ¬ startsHash line then some (pySplit delim line, rest)
    else parse_sample_ids delim rest

/-- The row-reading loop of `from_file`: `idx` counts filled rows, `acc`
holds the filled rows in reverse.  Mirrors the source order of checks:
blank lines are skipped, a nonempty line after `N` filled rows is an extra
row, then the field count is checked, then the row label, and only then are
the fields parsed as floats. -/
def parseRows (delim : Str) (sids : List Str) :
    List Str → Nat → Mat → Except Err Mat
  | [], idx, acc =>
    if idx ≠ sids.length then .error (.missingData idx sids.length) else .ok acc.reverse
  | l :: rest, idx, acc =>
    let line := pyStrip l
    if line = [] then parseRows delim sids rest idx acc
    else if sids.length ≤ idx then .error .extraRows
    else
      let tokens := pySplit delim line
      if tokens.length ≠ sids.length + 1 then .error (.badRowCount (idx + 1))
      else if tokens.headD [] = sids.getD idx [] then
        match parseFloats (tokens.drop 1) with
        | some row => parseRows delim sids rest (idx + 1) (row :: acc)
        | none => .error .value
      else .error .idMismatch

/-- Model of `DistanceMatrix.from_file` over a stream of lines: find the
header, fill the rows, then hand the completed data to the constructor. -/
def from_file (lines : List Str) (delim : Str) : Except Err DistanceMatrix :=
  match parse_sample_ids delim lines with
  | none => .error .missingHeader
  | some (sids, rest) =>
    match parseRows delim sids rest 0 [] with
    | .error e => .error e
    | .ok data => mkDM data sids

/-- `from_file` on a whole text: file iteration yields the `'\n'`-separated
lines (the terminators themselves are removed by the `strip` calls). -/
def from_file_str (s : Str) (delim : Str) : Except Err DistanceMatrix :=
  from_file (pySplit ['\n'] s) delim

/-- Model of `DistanceMatrix._format_sample_ids`: `delimiter.join([''] + ids)`. -/
def format_sample_ids (m : DistanceMatrix) (delim : Str) : Str :=
  joinD delim ([] :: m.sample_ids)

/-- The lines written by `DistanceMatrix.to_file`: the header, then one
line per sample: the ID, the delimiter, and the formatted distances. -/
def to_file_lines (m : DistanceMatrix) (delim : Str) : List Str :=
  format_sample_ids m delim ::
    List.zipWith (fun sid row => sid ++ delim ++ joinD delim (row.map formatVal))
      m.sample_ids m.data

/-- The full text written by `to_file`: every line followed by `'\n'`. -/
def to_file_str (m : DistanceMatrix) (delim : Str) : Str :=
  List.flatten ((to_file_lines m delim).map (fun l => l ++ ['\n']))

/-- Whether writing `m` and re-parsing with the same delimiter succeeds and
yields a matrix comparing equal (`==`) to `m`. -/
def roundTripOk (m : DistanceMatrix) (delim : Str) : Bool :=
  match from_file_str (to_file_str m delim) delim with
  | .ok m2 => dm_eq m2 (toPyObj m)
  | .error _ => false

/-- The buffer drawn by `random_distance_matrix`: `np.tril(R, -1)` keeps the
strictly lower triangle of the draw `R` and `data += data.T` mirrors it, so
entry `(i, j)` is `L[i][j] + L[j][i]` with `L[i][j] = R[i][j]` for `j < i`
and `0` otherwise. -/
def trilMirror (rand : Nat → Nat → ℚ) (num_samples : Nat) : Mat :=
  (List.range num_samples).map (fun i =>
    (List.range num_samples).map (fun j =>
      .fin ((if j < i then rand i j else 0) + (if i < j then rand j i else 0))))

/-- The default sample IDs `'1'..str(n)` of `random_distance_matrix`. -/
def defaultIds (num_samples : Nat) : List Str :=
  (List.range num_samples).map (fun i => natStr (i + 1))

/-- Model of `random_distance_matrix(num_samples, sample_ids)`.  The draw of
`np.random.rand` is an explicit parameter `rand` giving the sampled value at
each position.  A falsy `sample_ids` (absent, or an empty sequence) selects
the default labels `'1'..str(n)`. -/
def random_distance_matrix (rand : Nat → Nat → ℚ) (num_samples : Nat)
    (sample_ids : Option (List Str)) : Except Err DistanceMatrix :=
  let falsy := match sample_ids with
    | none => true
    | some l => l.isEmpty
  let ids := if falsy then defaultIds num_samples else sample_ids.getD []
  mkDM (trilMirror rand num_samples) ids

/-! ## Helper lemmas: stripping -/

theorem dropWhile_eq_self_of_head {p : Char → Bool} {c : Char} {t : Str}
    (h : ¬ p c) : (c :: t).dropWhile p = c :: t := by
  simp [List.dropWhile_cons, h]

theorem lstrip_cons_of_neg {c : Char} {t : Str} (h : ¬ isPyWs c) :
    lstrip (c :: t) = c :: t := dropWhile_eq_self_of_head h

theorem rstrip_append_of_neg {c : Char} {s : Str} (h : ¬ isPyWs c) :
    rstrip (s ++ [c]) = s ++ [c] := by
  simp only [rstrip, List.reverse_append, List.reverse_cons, List.reverse_nil, List.nil_append,
    List.cons_append, dropWhile_eq_self_of_head h]
  simp

theorem pyStrip_eq_self {c c' : Char} {t s : Str} (hhead : ¬ isPyWs c)
    (hlast : ¬ isPyWs c') (hs : c :: t = s ++ [c']) :
    pyStrip (c :: t) = c :: t := by
  rw [pyStrip, lstrip_cons_of_neg hhead, hs, rstrip_append_of_neg hlast]

theorem pyStrip_ws_cons {c c' w : Char} {t s : Str} (hw : isPyWs w)
    (hhead : ¬ isPyWs c) (hlast : ¬ isPyWs c') (hs : c :: t = s ++ [c']) :
    pyStrip (w :: c :: t) = c :: t := by
  have h1 : lstrip (w :: c :: t) = c :: t := by
    rw [lstrip, List.dropWhile_cons, if_pos hw, List.dropWhile_cons, if_neg hhead]
  rw [pyStrip, h1, hs, rstrip_append_of_neg hlast]

/-! ## Helper lemmas: joining and splitting -/

theorem joinD_cons (d : Str) (p : Str) {ps : List Str} (h : ps ≠ []) :
    joinD d (p :: ps) = p ++ d ++ joinD d ps := by
  cases ps with
  | nil => exact absurd rfl h
  | cons q qs => rfl

theorem mem_joinD {c : Char} {d : Str} {ps : List Str} (h : c ∈ joinD d ps) :
    c ∈ d ∨ ∃ p ∈ ps, c ∈ p := by
  induction ps with
  | nil => simp [joinD] at h
  | cons p qs ih =>
    cases qs with
    | nil =>
      right
      exact ⟨p, by simp, h⟩
    | cons q qs2 =>
      rw [joinD_cons _ _ (by simp)] at h
      rcases List.mem_append.1 h with h1 | h2
      · rcases List.mem_append.1 h1 with h3 | h4
        · exact Or.inr ⟨p, by simp, h3⟩
        · exact Or.inl h4
      · rcases ih h2 with h5 | ⟨r, hr, hcr⟩
        · exact Or.inl h5
        · exact Or.inr ⟨r, by simp [hr], hcr⟩

theorem joinD_head_cons {d : Str} {ch : Char} {t : Str} (ps : List Str) :
    ∃ u, joinD d ((ch :: t) :: ps) = ch :: u := by
  cases ps with
  | nil => exact ⟨t, rfl⟩
  | cons q qs => exact ⟨t ++ d ++ joinD d (q :: qs), rfl⟩

theorem joinD_last_decomp {d : Str} {P : Char → Prop} {ps : List Str} (hne : ps ≠ [])
    (h : ∀ p ∈ ps, p ≠ [] ∧ ∀ ch ∈ p, P ch) :
    ∃ u c, joinD d ps = u ++ [c] ∧ P c := by
  induction ps with
  | nil => exact absurd rfl hne
  | cons p qs ih =>
    cases qs with
    | nil =>
      obtain ⟨hp, hchars⟩ := h p (by simp)
      refine ⟨p.dropLast, p.getLast hp, ?_, hchars _ (List.getLast_mem hp)⟩
      simp [joinD, List.dropLast_append_getLast hp]
    | cons q qs2 =>
      obtain ⟨u, c, hu, hc⟩ := ih (by simp) (fun r hr => h r (by simp [hr]))
      refine ⟨p ++ d ++ u, c, ?_, hc⟩
      rw [joinD_cons _ _ (by simp), hu]
      simp

theorem pySplitF_fuel {d s : Str} {acc : Str} {f₁ f₂ : Nat}
    (h₁ : s.length < f₁) (h₂ : s.length < f₂) :
    pySplitF f₁ d s acc = pySplitF f₂ d s acc := by
  induction f₁ generalizing f₂ s acc with
  | zero => omega
  | succ g ih =>
    cases f₂ with
    | zero => omega
    | succ g₂ =>
      cases s with
      | nil => rfl
      | cons c rest =>
        simp only [pySplitF]
        by_cases hpre : d.isPrefixOf (c :: rest)
        · simp only [hpre, if_true]
          have hlen : (rest.drop (d.length - 1)).length < g := by
            have := List.length_drop (d.length - 1) rest
            simp only [List.length_cons] at h₁
            omega
          have hlen₂ : (rest.drop (d.length - 1)).length < g₂ := by
            have := List.length_drop (d.length - 1) rest
            simp only [List.length_cons] at h₂
            omega
          rw [ih hlen hlen₂]
        · simp only [hpre, if_false]
          have hlen : rest.length < g := by simp only [List.length_cons] at h₁; omega
          have hlen₂ : rest.length < g₂ := by simp only [List.length_cons] at h₂; omega
          exact ih hlen hlen₂

theorem pySplitF_single_of_notMem {c : Char} {s acc : Str} {f : Nat}
    (hf : s.length < f) (h : c ∉ s) :
    pySplitF f [c] s acc = [acc.reverse ++ s] := by
  induction s generalizing f acc with
  | nil =>
    cases f with
    | zero => omega
    | succ g => simp [pySplitF]
  | cons a t ih =>
    cases f with
    | zero => omega
    | succ g =>
      have hca : ¬ ([c].isPrefixOf (a :: t) = true) := by
        simp only [List.isPrefixOf, Bool.and_eq_true, beq_iff_eq]
        intro hcon
        exact h (by simp [hcon.1])
      have ht : c ∉ t := fun hmem => h (by simp [hmem])
      have hlen : t.length < g := by simp only [List.length_cons] at hf; omega
      simp only [pySplitF, if_neg hca, ih hlen ht]
      simp

theorem pySplitF_single_cons {c : Char} {p rest acc : Str} {f : Nat}
    (hf : (p ++ c :: rest).length < f) (h : c ∉ p) :
    pySplitF f [c] (p ++ c :: rest) acc =
      (acc.reverse ++ p) :: pySplitF (rest.length + 1) [c] rest [] := by
  induction p generalizing f acc with
  | nil =>
    cases f with
    | zero => simp at hf
    | succ g =>
      have hpre : [c].isPrefixOf (c :: rest) = true := by simp [List.isPrefixOf]
      have hg : rest.length < g := by simp only [List.nil_append, List.length_cons] at hf; omega
      simp only [List.nil_append, pySplitF, if_pos hpre, List.length_cons, List.length_nil,
        Nat.sub_self, List.drop_zero, List.append_eq]
      rw [@pySplitF_fuel [c] rest [] g (rest.length + 1) hg (by omega)]
      simp
  | cons a p' ih =>
    cases f with
    | zero => simp at hf
    | succ g =>
      have hac : ¬ ([c].isPrefixOf (a :: (p' ++ c :: rest)) = true) := by
        simp only [List.isPrefixOf, Bool.and_eq_true, beq_iff_eq]
        intro hcon
        exact h (by simp [hcon.1])
      have hp' : c ∉ p' := fun hmem => h (by simp [hmem])
      have hg : (p' ++ c :: rest).length < g := by
        simp only [List.cons_append, List.length_cons] at hf; omega
      simp only [List.cons_append, pySplitF, List.append_eq, if_neg hac, ih hg hp']
      simp

theorem pySplit_joinD_single {c : Char} {ps : List Str} (hne : ps ≠ [])
    (h : ∀ p ∈ ps, c ∉ p) :
    pySplit [c] (joinD [c] ps) = ps := by
  induction ps with
  | nil => exact absurd rfl hne
  | cons p qs ih =>
    cases qs with
    | nil =>
      simp only [joinD, pySplit, if_neg (by simp : ¬ ([c] = ([] : Str)))]
      rw [pySplitF_single_of_notMem (by omega) (h p (by simp))]
      simp
    | cons q qs2 =>
      rw [joinD_cons _ _ (by simp)]
      simp only [pySplit, if_neg (by simp : ¬ ([c] = ([] : Str)))]
      have happ : p ++ [c] ++ joinD [c] (q :: qs2) = p ++ c :: joinD [c] (q :: qs2) := by simp
      rw [happ, pySplitF_single_cons (by omega) (h p (by simp))]
      have := ih (by simp) (fun r hr => h r (by simp [hr]))
      simp only [pySplit, if_neg (by simp : ¬ ([c] = ([] : Str)))] at this
      rw [this]
      simp

theorem flatten_map_append_single (c : Char) (ls : List Str) :
    List.flatten (ls.map (fun l => l ++ [c])) = joinD [c] (ls ++ [[]]) := by
  induction ls with
  | nil => simp [joinD]
  | cons l ls2 ih =>
    have hne : ls2 ++ [[]] ≠ ([] : List Str) := by simp
    rw [List.map_cons, List.flatten_cons, ih, List.cons_append, joinD_cons _ _ hne]

/-! ## Helper lemmas: decimal numerals -/

theorem digitVal_digitChar : ∀ d, d < 10 → digitVal (digitChar d) = d := by decide

theorem digitChar_tame : ∀ d, ¬ isPyWs (digitChar d) ∧ digitChar d ≠ '#' := by
  intro d
  by_cases h : d < 10
  · interval_cases d <;> decide
  · have hq : digitChar d = '?' := by
      rcases d with _ | _ | _ | _ | _ | _ | _ | _ | _ | _ | d
      all_goals first | omega | rfl
    rw [hq]
    decide

theorem natCharsF_fuel {n f₁ f₂ : Nat} (h₁ : n < f₁) (h₂ : n < f₂) :
    natCharsF f₁ n = natCharsF f₂ n := by
  induction f₁ generalizing f₂ n with
  | zero => omega
  | succ g ih =>
    cases f₂ with
    | zero => omega
    | succ g₂ =>
      simp only [natCharsF]
      by_cases hn : n < 10
      · simp [hn]
      · have hd : n / 10 < n := Nat.div_lt_self (by omega) (by omega)
        simp only [hn, if_false]
        rw [ih (show n / 10 < g by omega) (show n / 10 < g₂ by omega)]

theorem charsToNat_append_single (s : Str) (c : Char) :
    charsToNat (s ++ [c]) = charsToNat s * 10 + digitVal c := by
  simp [charsToNat]

theorem charsToNat_natChars (n : Nat) : charsToNat (natChars n) = n := by
  induction n using Nat.strong_induction_on with
  | _ n ih =>
    by_cases hn : n < 10
    · simp [natChars, natCharsF, hn, charsToNat, digitVal_digitChar n hn]
    · have hd : n / 10 < n := Nat.div_lt_self (by omega) (by omega)
      have step : natChars n = natChars (n / 10) ++ [digitChar (n % 10)] := by
        have unf : natChars n =
            if n < 10 then [digitChar n] else natCharsF n (n / 10) ++ [digitChar (n % 10)] := rfl
        rw [unf, if_neg hn,
          natCharsF_fuel (show n / 10 < n from hd) (show n / 10 < n / 10 + 1 by omega)]
        rfl
      rw [step, charsToNat_append_single, ih (n / 10) hd,
        digitVal_digitChar (n % 10) (Nat.mod_lt n (by omega))]
      omega

theorem natStr_injective {a b : Nat} (h : natStr a = natStr b) : a = b := by
  have := congrArg charsToNat h
  rwa [natStr, natStr, charsToNat_natChars, charsToNat_natChars] at this

theorem natChars_tame {n : Nat} {c : Char} (h : c ∈ natChars n) :
    ¬ isPyWs c ∧ c ≠ '#' := by
  rw [natChars] at h
  generalize hf : n + 1 = f at h
  have hlt : n < f := by omega
  clear hf
  induction f generalizing n with
  | zero => simp [natCharsF] at h
  | succ g ih =>
    simp only [natCharsF] at h
    by_cases hn : n < 10
    · simp only [hn, if_true, List.mem_singleton] at h
      exact h ▸ digitChar_tame n
    · simp only [hn, if_false, List.mem_append, List.mem_singleton] at h
      rcases h with h1 | h2
      · have hd : n / 10 < n := Nat.div_lt_self (by omega) (by omega)
        exact ih h1 (by omega)
      · exact h2 ▸ digitChar_tame (n % 10)

theorem natChars_ne_nil (n : Nat) : natChars n ≠ [] := by
  by_cases hn : n < 10
  · simp [natChars, natCharsF, hn]
  · have hd : n / 10 < n := Nat.div_lt_self (by omega) (by omega)
    simp [natChars, natCharsF, hn]

/-! ## Helper lemmas: the characters of formatted values -/

theorem formatVal_tame {v : PyFloat} {c : Char} (h : c ∈ formatVal v) :
    ¬ isPyWs c ∧ c ≠ '#' := by
  cases v with
  | nan =>
    simp only [formatVal, List.mem_cons, List.not_mem_nil, or_false] at h
    rcases h with rfl | rfl | rfl <;> decide
  | inf =>
    simp only [formatVal, List.mem_cons, List.not_mem_nil, or_false] at h
    rcases h with rfl | rfl | rfl <;> decide
  | ninf =>
    simp only [formatVal, List.mem_cons, List.not_mem_nil, or_false] at h
    rcases h with rfl | rfl | rfl | rfl <;> decide
  | fin q =>
    simp only [formatVal, List.mem_append] at h
    rcases h with h1 | h2
    · rcases hqn : q.num with n | n <;> rw [hqn] at h1
      · simp at h1
      · simp only [List.mem_singleton] at h1
        subst h1
        decide
    · simp only [decCharsND, List.mem_append, List.mem_cons, List.mem_replicate] at h2
      rcases h2 with h3 | h4 | h5
      · exact natChars_tame h3
      · subst h4
        decide
      · rcases h5 with ⟨_, rfl⟩ | h6
        · decide
        · exact natChars_tame h6

theorem formatVal_ne_nil (v : PyFloat) : formatVal v ≠ [] := by
  cases v with
  | nan => decide
  | inf => decide
  | ninf => decide
  | fin q =>
    simp only [formatVal, decCharsND]
    intro hcon
    rcases List.append_eq_nil.mp hcon with ⟨_, h2⟩
    rcases List.append_eq_nil.mp h2 with ⟨h3, _⟩
    exact natChars_ne_nil _ h3

/-! ## Helper lemmas: validation and construction -/

theorem rectangular_spec {d : Mat} (h : rectangular d = true) :
    ∀ r ∈ d, r.length = matShape1 d := by
  simpa [rectangular, List.all_eq_true, decide_eq_true_eq] using h

theorem is_valid_dm_spec {d : Mat} (h : is_valid_dm d = true) :
    matShape0 d = matShape1 d ∧
    (∀ i < matShape0 d, ∀ j < matShape0 d, pyEq (ent d i j) (ent d j i) = true) ∧
    (∀ i < matShape0 d, pyEq (ent d i i) (.fin 0) = true) := by
  simp only [is_valid_dm, Bool.and_eq_true, decide_eq_true_eq, List.all_eq_true,
    List.mem_range] at h
  exact ⟨h.1.1, fun i hi j hj => h.1.2 i hi j hj, fun i hi => h.2 i hi⟩

theorem validate_none_iff {data : Mat} {ids : List Str} : validate data ids = none ↔
    ¬ (matShape0 data = 0 ∨ matShape1 data = 0) ∧ ids.length = ids.dedup.length ∧
    is_valid_dm data = true ∧ ids.length = matShape0 data := by
  unfold validate
  split_ifs with h1 h2 h3 h4 <;> simp_all

theorem mkDM_ok_iff {data : Mat} {ids : List Str} {m : DistanceMatrix} :
    mkDM data ids = .ok m ↔
    rectangular data = true ∧ validate data ids = none ∧
    m = ⟨data, ids, index_list ids⟩ := by
  unfold mkDM
  by_cases hr : rectangular data
  · simp only [hr, if_true, true_and]
    cases hv : validate data ids with
    | some e => simp
    | none => constructor <;> (intro h; simp_all) 
  · simp [hr]

theorem nodup_of_len_dedup {ids : List Str} (h : ids.length = ids.dedup.length) :
    ids.Nodup := by
  have hsub := List.dedup_sublist ids
  have heq := hsub.eq_of_length_le (by omega)
  exact List.dedup_eq_self.mp heq

theorem ent_eq_getElem {d : Mat} {i j : Nat} (hi : i < d.length) (hj : j < d[i].length) :
    ent d i j = d[i][j] := by
  rw [ent, List.getD_eq_getElem d [] hi, List.getD_eq_getElem _ _ hj]

theorem pyEq_nan_left (x : PyFloat) : pyEq .nan x = false := by
  cases x <;> rfl

theorem valid_no_nan {data : Mat} (hrect : rectangular data = true)
    (hvalid : is_valid_dm data = true) :
    ∀ row ∈ data, ∀ v ∈ row, v ≠ .nan := by
  intro row hrow v hv hnan
  obtain ⟨sq, hsymm, _⟩ := is_valid_dm_spec hvalid
  obtain ⟨i, hi, hrowi⟩ := List.mem_iff_getElem.mp hrow
  obtain ⟨j, hj, hvj⟩ := List.mem_iff_getElem.mp hv
  have hin : i < matShape0 data := hi
  have hrl : row.length = matShape1 data := rectangular_spec hrect row hrow
  have hjn : j < matShape0 data := by rw [sq, ← hrl]; exact hj
  have hsym := hsymm i hin j hjn
  have h1 : data.getD i [] = row := by rw [List.getD_eq_getElem data [] hi, hrowi]
  have hentv : ent data i j = v := by
    rw [ent, h1, List.getD_eq_getElem row _ hj, hvj]
  rw [hentv, hnan, pyEq_nan_left] at hsym
  exact Bool.false_ne_true hsym

/-! ## Helper lemmas: the sample-ID dictionary -/

theorem dictGet_idxPairs_not {k : Nat} {ids : List Str} {label : Str} (h : label ∉ ids) :
    dictGet (idxPairsFrom k ids) label = none := by
  induction ids generalizing k with
  | nil => rfl
  | cons a t ih =>
    have hna : ¬ (a = label) := fun he => h (by simp [he])
    have hnt : label ∉ t := fun hm => h (by simp [hm])
    simp [idxPairsFrom, dictGet, ih hnt, hna]

theorem dictGet_idxPairs_get {k : Nat} {ids : List Str} (hnd : ids.Nodup) :
    ∀ i (h : i < ids.length), dictGet (idxPairsFrom k ids) ids[i] = some (k + i) := by
  induction ids generalizing k with
  | nil => intro i h; simp at h
  | cons a t ih =>
    intro i h
    cases i with
    | zero =>
      have hna : a ∉ t := (List.nodup_cons.mp hnd).1
      simp [idxPairsFrom, dictGet, dictGet_idxPairs_not hna]
    | succ i2 =>
      have hnd2 : t.Nodup := (List.nodup_cons.mp hnd).2
      have hlt : i2 < t.length := by simpa using h
      have hrec := @ih (k + 1) hnd2 i2 hlt
      simp only [List.getElem_cons_succ, idxPairsFrom, dictGet, hrec]
      congr 1
      omega

/-! ## Claim C7: concrete parse of a 2x2 matrix -/

/-- C7: parsing the input `"\ta\tb\na\t0.0\t1.0\nb\t1.0\t0.0\n"` with
`from_file` and the default tab delimiter succeeds and returns a 2x2
`DistanceMatrix` whose sample IDs are `("a", "b")` and whose buffer equals
`[[0, 1], [1, 0]]`. -/
theorem from_file_concrete_2x2 :
    from_file_str (("\ta\tb\na\t0.0\t1.0\nb\t1.0\t0.0\n").toList) ['\t'] =
      .ok ⟨[[.fin 0, .fin 1], [.fin 1, .fin 0]], [['a'], ['b']],
           [(['a'], 0), (['b'], 1)]⟩ := by
  decide

/-! ## Claim C4: equality is total and structural -/

/-- C4: for every `DistanceMatrix` `a` and arbitrary value `b`, `a == b` is
`True` iff `b` exposes the same shape, the same sample-ID sequence in order,
and an element-wise equal data buffer; a value lacking any of the three
attributes compares unequal.  `dm_eq` is a total function, so the comparison
never raises. -/
theorem dm_eq_iff (a : DistanceMatrix) (b : PyObj) :
    dm_eq a b = true ↔
    b.shape = some (dmShape a) ∧ b.sample_ids = some a.sample_ids ∧
    ∃ d, b.data = some d ∧ array_equal a.data d = true := by
  rcases b with ⟨sh, ids, dt⟩
  rcases sh with _ | s
  · simp [dm_eq]
  rcases ids with _ | ids2
  · simp only [dm_eq]
    split_ifs <;> simp
  rcases dt with _ | d2
  · simp only [dm_eq]
    split_ifs <;> simp
  simp only [dm_eq]
  split_ifs with h1 h2
  · refine iff_of_false (by simp) ?_
    rintro ⟨hsh, -⟩
    exact h1 (Option.some.inj hsh).symm
  · refine iff_of_false (by simp) ?_
    rintro ⟨-, hid, -⟩
    exact h2 (Option.some.inj hid).symm
  · push_neg at h1 h2
    simp [h1, h2]

/-! ## Claim C2: validation order and atomic construction -/

/-- C2: construction runs the validation checks in the source order — size,
label uniqueness, structural validity (`is_valid_dm`), label count —
short-circuiting at the first failure with that check's distinct error, and
commits the buffer, labels and index as instance state only when every
check passes (a failure returns an error and never a partially constructed
matrix). -/
theorem construction_check_order (data : Mat) (ids : List Str)
    (hrect : rectangular data = true) :
    ((matShape0 data = 0 ∨ matShape1 data = 0) → mkDM data ids = .error .dmSize)
    ∧ (¬ (matShape0 data = 0 ∨ matShape1 data = 0) →
        ids.length ≠ ids.dedup.length → mkDM data ids = .error .dmUnique)
    ∧ (¬ (matShape0 data = 0 ∨ matShape1 data = 0) →
        ids.length = ids.dedup.length → is_valid_dm data = false →
        mkDM data ids = .error .dmStruct)
    ∧ (¬ (matShape0 data = 0 ∨ matShape1 data = 0) →
        ids.length = ids.dedup.length → is_valid_dm data = true →
        ids.length ≠ matShape0 data → mkDM data ids = .error .dmCount)
    ∧ (¬ (matShape0 data = 0 ∨ matShape1 data = 0) →
        ids.length = ids.dedup.length → is_valid_dm data = true →
        ids.length = matShape0 data →
        mkDM data ids = .ok ⟨data, ids, index_list ids⟩) := by
  have hv1 : ∀ e, validate data ids = some e → mkDM data ids = .error e := by
    intro e hv
    simp [mkDM, hrect, hv]
  have hv2 : validate data ids = none →
      mkDM data ids = .ok ⟨data, ids, index_list ids⟩ := by
    intro hv
    simp [mkDM, hrect, hv]
  refine ⟨?_, ?_, ?_, ?_, ?_⟩
  · intro h1
    refine hv1 _ ?_
    unfold validate
    rw [if_pos h1]
  · intro h1 h2
    refine hv1 _ ?_
    unfold validate
    rw [if_neg h1, if_pos h2]
  · intro h1 h2 h3
    refine hv1 _ ?_
    unfold validate
    rw [if_neg h1, if_neg (not_not_intro h2), if_pos (by simp [h3])]
  · intro h1 h2 h3 h4
    refine hv1 _ ?_
    unfold validate
    rw [if_neg h1, if_neg (not_not_intro h2), if_neg (by simp [h3]), if_pos h4]
  · intro h1 h2 h3 h4
    refine hv2 ?_
    unfold validate
    rw [if_neg h1, if_neg (not_not_intro h2), if_neg (by simp [h3]),
      if_neg (not_not_intro h4)]

/-- Witness for C2: each branch of the order theorem exercised at a
concrete input. -/
theorem construction_check_order_witness :
    mkDM ([] : Mat) [] = .error .dmSize
    ∧ mkDM [[.fin 0]] [['a'], ['a']] = .error .dmUnique
    ∧ mkDM [[.fin 1]] [['a']] = .error .dmStruct
    ∧ mkDM [[.fin 0]] [['a'], ['b']] = .error .dmCount
    ∧ mkDM [[.fin 0]] [['a']] = .ok ⟨[[.fin 0]], [['a']], [(['a'], 0)]⟩ :=
  ⟨(construction_check_order [] [] (by decide)).1 (by decide),
   (construction_check_order [[.fin 0]] [['a'], ['a']] (by decide)).2.1
     (by decide) (by decide),
   (construction_check_order [[.fin 1]] [['a']] (by decide)).2.2.1
     (by decide) (by decide) (by decide),
   (construction_check_order [[.fin 0]] [['a'], ['b']] (by decide)).2.2.2.1
     (by decide) (by decide) (by decide) (by decide),
   (construction_check_order [[.fin 0]] [['a']] (by decide)).2.2.2.2
     (by decide) (by decide) (by decide) (by decide)⟩

/-! ## Claim C9: atomic replacement of sample IDs -/

/-- C9: replacing `sample_ids` re-validates against the existing buffer
before committing: a duplicate label sequence raises the uniqueness error, a
count mismatch raises the count error (in either case the result is an
error, so the original instance state is untouched), and a valid sequence
yields the instance with the same buffer, the new labels, and a rebuilt
index. -/
theorem sample_ids_setter_atomic (data : Mat) (ids0 : List Str)
    (m : DistanceMatrix) (hmk : mkDM data ids0 = .ok m) (new : List Str) :
    (new.length ≠ new.dedup.length → setSampleIds m new = .error .dmUnique)
    ∧ (new.length = new.dedup.length → new.length ≠ matShape0 m.data →
        setSampleIds m new = .error .dmCount)
    ∧ (new.length = new.dedup.length → new.length = matShape0 m.data →
        setSampleIds m new = .ok ⟨m.data, new, index_list new⟩) := by
  obtain ⟨hrect, hval, hm⟩ := mkDM_ok_iff.mp hmk
  obtain ⟨hsz, hdedup, hvalid, hcount⟩ := validate_none_iff.mp hval
  have hdata : m.data = data := by rw [hm]
  refine ⟨?_, ?_, ?_⟩
  · intro h1
    have hv : validate m.data new = some .dmUnique := by
      unfold validate
      rw [hdata, if_neg hsz, if_pos h1]
    simp [setSampleIds, hv]
  · intro h1 h2
    rw [hdata] at h2
    have hv : validate m.data new = some .dmCount := by
      unfold validate
      rw [hdata, if_neg hsz, if_neg (not_not_intro h1), if_neg (by simp [hvalid]),
        if_pos h2]
    simp [setSampleIds, hv]
  · intro h1 h2
    rw [hdata] at h2
    have hv : validate m.data new = none := by
      unfold validate
      rw [hdata, if_neg hsz, if_neg (not_not_intro h1), if_neg (by simp [hvalid]),
        if_neg (not_not_intro h2)]
    simp [setSampleIds, hv]

/-- Witness for C9: the three setter branches at a concrete matrix. -/
theorem sample_ids_setter_atomic_witness :
    (match mkDM [[.fin 0, .fin 1], [.fin 1, .fin 0]] [['a'], ['b']] with
      | .ok m => setSampleIds m [['x'], ['x']] = .error .dmUnique
          ∧ setSampleIds m [['x']] = .error .dmCount
          ∧ setSampleIds m [['x'], ['y']] = .ok ⟨m.data, [['x'], ['y']], [(['x'], 0), (['y'], 1)]⟩
      | .error _ => False) := by
  have hmk : mkDM [[.fin 0, .fin 1], [.fin 1, .fin 0]] [['a'], ['b']] =
      .ok ⟨[[.fin 0, .fin 1], [.fin 1, .fin 0]], [['a'], ['b']], [(['a'], 0), (['b'], 1)]⟩ := by
    decide
  rw [hmk]
  have hthm := sample_ids_setter_atomic _ _ _ hmk
  exact ⟨(hthm [['x'], ['x']]).1 (by decide),
    (hthm [['x']]).2.1 (by decide) (by decide),
    (hthm [['x'], ['y']]).2.2 (by decide) (by decide)⟩

/-! ## Claim C8: dual-mode indexing -/

/-- C8: for a constructed matrix, indexing with a sample ID present in
`sample_ids` returns the `redundant_form` row at that label's position;
indexing with an absent string raises `MissingSampleIDError` naming the
label; any non-string index is forwarded verbatim to the buffer's own
indexing. -/
theorem getitem_dual_mode (data : Mat) (ids : List Str) (m : DistanceMatrix)
    (hmk : mkDM data ids = .ok m) :
    (∀ i (h : i < m.sample_ids.length),
        getitem m (.key m.sample_ids[i]) = .ok ((redundant_form m).getD i []))
    ∧ (∀ s, s ∉ m.sample_ids → getitem m (.key s) = .error (.missingSample s))
    ∧ (∀ i : Int, getitem m (.pos i) = ndarrayRow m.data i) := by
  obtain ⟨hrect, hval, hm⟩ := mkDM_ok_iff.mp hmk
  obtain ⟨hsz, hdedup, hvalid, hcount⟩ := validate_none_iff.mp hval
  have hnd : ids.Nodup := nodup_of_len_dedup hdedup
  subst hm
  refine ⟨?_, ?_, ?_⟩
  · intro i h
    have hd := @dictGet_idxPairs_get 0 ids hnd i (by simpa using h)
    simp [getitem, index_list, hd, redundant_form]
  · intro s hs
    simp only at hs
    simp [getitem, index_list, dictGet_idxPairs_not hs]
  · intro i
    rfl

/-- Witness for C8: lookup of a present label, of an absent label, and an
integer pass-through on a concrete matrix. -/
theorem getitem_dual_mode_witness :
    (match mkDM [[.fin 0, .fin 1], [.fin 1, .fin 0]] [['a'], ['b']] with
      | .ok m => getitem m (.key ['b']) = .ok [.fin 1, .fin 0]
          ∧ getitem m (.key ['c']) = .error (.missingSample ['c'])
          ∧ getitem m (.pos (-1)) = ndarrayRow m.data (-1)
      | .error _ => False) := by
  have hmk : mkDM [[.fin 0, .fin 1], [.fin 1, .fin 0]] [['a'], ['b']] =
      .ok ⟨[[.fin 0, .fin 1], [.fin 1, .fin 0]], [['a'], ['b']], [(['a'], 0), (['b'], 1)]⟩ := by
    decide
  rw [hmk]
  have hthm := getitem_dual_mode _ _ _ hmk
  refine ⟨?_, hthm.2.1 ['c'] (by decide), hthm.2.2 (-1)⟩
  have h1 := hthm.1 1 (by decide)
  simpa using h1

/-! ## Claims C5 and C6: parser error conditions -/

theorem parse_sample_ids_none {delim : Str} {lines : List Str}
    (h : ∀ l ∈ lines, pyStrip l = [] ∨ startsHash (pyStrip l) = true) :
    parse_sample_ids delim lines = none := by
  induction lines with
  | nil => rfl
  | cons l rest ih =>
    have hl := h l (by simp)
    have hcond : ¬ (pyStrip l ≠ [] ∧ ¬ startsHash (pyStrip l)) := by
      rcases hl with h1 | h2
      · exact fun hc => hc.1 h1
      · exact fun hc => hc.2 h2
    simp only [parse_sample_ids, if_neg hcond]
    exact ih (fun l2 hl2 => h l2 (by simp [hl2]))

theorem pySplitF_ne_nil (f : Nat) (d s acc : Str) : pySplitF f d s acc ≠ [] := by
  induction f generalizing s acc with
  | zero => simp [pySplitF]
  | succ g ih =>
    cases s with
    | nil => simp [pySplitF]
    | cons c rest =>
      simp only [pySplitF]
      by_cases hp : d.isPrefixOf (c :: rest)
      · simp [hp]
      · simp only [hp, if_false]
        exact ih rest (c :: acc)

theorem pySplit_ne_nil (d s : Str) : pySplit d s ≠ [] := by
  unfold pySplit
  by_cases hd : d = []
  · simp [hd]
  · simp only [hd, if_false]
    exact pySplitF_ne_nil _ _ _ _

/-- C5: stream-shape errors of `from_file`: a stream of only blank or
comment lines fails with the missing-header error; a nonempty line arriving
after all `N` rows are filled fails with the extra-rows error; if the
stream ends with fewer than `N` rows filled the missing-data error reports
the actual and expected row counts — in particular a header with no data
rows reports actual `0` and expected `N` — and blank lines are skipped
without being counted as rows, both before the header and between data
rows. -/
theorem from_file_stream_errors :
    (∀ (lines : List Str) (delim : Str),
      (∀ l ∈ lines, pyStrip l = [] ∨ startsHash (pyStrip l) = true) →
      from_file lines delim = .error .missingHeader)
    ∧ (∀ (delim : Str) (sids : List Str) (l : Str) (rest : List Str) (idx : Nat) (acc : Mat),
      pyStrip l ≠ [] → sids.length ≤ idx →
      parseRows delim sids (l :: rest) idx acc = .error .extraRows)
    ∧ (∀ (delim : Str) (sids : List Str) (rest : List Str) (idx : Nat) (acc : Mat),
      (∀ l ∈ rest, pyStrip l = []) → idx ≠ sids.length →
      parseRows delim sids rest idx acc = .error (.missingData idx sids.length))
    ∧ (∀ (header delim : Str), pyStrip header ≠ [] → startsHash (pyStrip header) = false →
      from_file [header] delim =
        .error (.missingData 0 (pySplit delim (pyStrip header)).length))
    ∧ (∀ (delim : Str) (sids : List Str) (l : Str) (rest : List Str) (idx : Nat) (acc : Mat),
      pyStrip l = [] →
      parseRows delim sids (l :: rest) idx acc = parseRows delim sids rest idx acc)
    ∧ (∀ (delim : Str) (l : Str) (rest : List Str), pyStrip l = [] →
      parse_sample_ids delim (l :: rest) = parse_sample_ids delim rest) := by
  have blank_skip : ∀ (delim : Str) (sids : List Str) (l : Str) (rest : List Str)
      (idx : Nat) (acc : Mat), pyStrip l = [] →
      parseRows delim sids (l :: rest) idx acc = parseRows delim sids rest idx acc := by
    intro delim sids l rest idx acc h
    simp only [parseRows, if_pos h]
  have missing_data : ∀ (delim : Str) (sids : List Str) (rest : List Str) (idx : Nat)
      (acc : Mat), (∀ l ∈ rest, pyStrip l = []) → idx ≠ sids.length →
      parseRows delim sids rest idx acc = .error (.missingData idx sids.length) := by
    intro delim sids rest
    induction rest with
    | nil =>
      intro idx acc _ hne
      simp only [parseRows, if_pos hne]
    | cons l rest2 ih =>
      intro idx acc hall hne
      rw [blank_skip delim sids l rest2 idx acc (hall l (by simp))]
      exact ih idx acc (fun l2 hl2 => hall l2 (by simp [hl2])) hne
  refine ⟨?_, ?_, missing_data, ?_, blank_skip, ?_⟩
  · intro lines delim h
    simp [from_file, parse_sample_ids_none h]
  · intro delim sids l rest idx acc hne hle
    simp only [parseRows, if_neg hne, if_pos hle]
  · intro header delim hne hhash
    have hcond : pyStrip header ≠ [] ∧ ¬ startsHash (pyStrip header) := by
      exact ⟨hne, by simp [hhash]⟩
    have hps : parse_sample_ids delim [header] =
        some (pySplit delim (pyStrip header), []) := by
      simp only [parse_sample_ids, if_pos hcond]
    have hrows : parseRows delim (pySplit delim (pyStrip header)) [] 0 [] =
        .error (.missingData 0 (pySplit delim (pyStrip header)).length) := by
      have hlen : (pySplit delim (pyStrip header)).length ≠ 0 := by
        simpa using pySplit_ne_nil delim (pyStrip header)
      simp only [parseRows, if_pos (Ne.symm hlen)]
    simp [from_file, hps, hrows]
  · intro delim l rest h
    have hcond : ¬ (pyStrip l ≠ [] ∧ ¬ startsHash (pyStrip l)) := fun hc => hc.1 h
    simp only [parse_sample_ids, if_neg hcond]

/-- Witness for C5: each conjunct at a concrete stream. -/
theorem from_file_stream_errors_witness :
    from_file [['#', 'x'], [' ']] ['\t'] = .error .missingHeader
    ∧ parseRows ['\t'] [['a']] [['x']] 1 [] = .error .extraRows
    ∧ parseRows ['\t'] [['a'], ['b']] [] 0 [] = .error (.missingData 0 2)
    ∧ from_file [['a', '\t', 'b']] ['\t'] = .error (.missingData 0 2)
    ∧ parseRows ['\t'] [['a']] [[' '], ['a', '\t', '0']] 0 [] =
        parseRows ['\t'] [['a']] [['a', '\t', '0']] 0 []
    ∧ parse_sample_ids ['\t'] [[' '], ['a']] = parse_sample_ids ['\t'] [['a']] := by
  refine ⟨from_file_stream_errors.1 _ _ (by decide),
    from_file_stream_errors.2.1 _ _ _ _ _ _ (by decide) (by decide),
    from_file_stream_errors.2.2.1 _ _ _ _ _ (by decide) (by decide),
    ?_,
    from_file_stream_errors.2.2.2.2.1 _ _ _ _ _ _ (by decide),
    from_file_stream_errors.2.2.2.2.2 _ _ _ (by decide)⟩
  have h := from_file_stream_errors.2.2.2.1 ['a', '\t', 'b'] ['\t'] (by decide) (by decide)
  simpa using h

/-- C6: per-row checks of `from_file`, in source order: a row whose field
count differs from `N + 1` fails with the malformed-row error naming the
1-based row number (regardless of the row label); with the right field
count, a leading field differing from the header label at the current
position fails with the sample-ID-mismatch error; and only when both checks
pass are the remaining `N` fields parsed as floats and stored as the next
row. -/
theorem from_file_row_checks (delim : Str) (sids : List Str) (l : Str)
    (rest : List Str) (idx : Nat) (acc : Mat)
    (hline : pyStrip l ≠ []) (hidx : idx < sids.length) :
    ((pySplit delim (pyStrip l)).length ≠ sids.length + 1 →
      parseRows delim sids (l :: rest) idx acc = .error (.badRowCount (idx + 1)))
    ∧ ((pySplit delim (pyStrip l)).length = sids.length + 1 →
      (pySplit delim (pyStrip l)).headD [] ≠ sids.getD idx [] →
      parseRows delim sids (l :: rest) idx acc = .error .idMismatch)
    ∧ (∀ row, (pySplit delim (pyStrip l)).length = sids.length + 1 →
      (pySplit delim (pyStrip l)).headD [] = sids.getD idx [] →
      parseFloats ((pySplit delim (pyStrip l)).drop 1) = some row →
      parseRows delim sids (l :: rest) idx acc =
        parseRows delim sids rest (idx + 1) (row :: acc)) := by
  have hnotle : ¬ sids.length ≤ idx := by omega
  refine ⟨?_, ?_, ?_⟩
  · intro hcount
    simp only [parseRows, if_neg hline, if_neg hnotle, if_pos hcount]
  · intro hcount hhead
    simp only [parseRows, if_neg hline, if_neg hnotle, if_neg (not_not_intro hcount),
      if_neg hhead]
  · intro row hcount hhead hfloats
    simp only [parseRows, if_neg hline, if_neg hnotle, if_neg (not_not_intro hcount),
      if_pos hhead, hfloats]

/-- Witness for C6: the three per-row branches at concrete rows. -/
theorem from_file_row_checks_witness :
    parseRows ['\t'] [['a']] [['x']] 0 [] = .error (.badRowCount 1)
    ∧ parseRows ['\t'] [['a']] [['b', '\t', '0']] 0 [] = .error .idMismatch
    ∧ parseRows ['\t'] [['a']] [['a', '\t', '0']] 0 [] =
        parseRows ['\t'] [['a']] [] 1 [[.fin 0]] :=
  ⟨(from_file_row_checks ['\t'] [['a']] ['x'] [] 0 [] (by decide) (by decide)).1
      (by decide),
   (from_file_row_checks ['\t'] [['a']] ['b', '\t', '0'] [] 0 [] (by decide) (by decide)).2.1
      (by decide) (by decide),
   (from_file_row_checks ['\t'] [['a']] ['a', '\t', '0'] [] 0 [] (by decide) (by decide)).2.2
      [.fin 0] (by decide) (by decide) (by decide)⟩

/-! ## Claim C3: finiteness of entries -/

/-- C3 counterexample: validation accepts infinite entries.  The buffer
`[[0, inf], [inf, 0]]` is square, symmetric and hollow under Python float
comparison (`inf == inf`), so construction succeeds even though the matrix
contains a non-finite entry, at position `(0, 1)`. -/
theorem construction_admits_inf :
    mkDM [[.fin 0, .inf], [.inf, .fin 0]] [['a'], ['b']] =
      .ok ⟨[[.fin 0, .inf], [.inf, .fin 0]], [['a'], ['b']], [(['a'], 0), (['b'], 1)]⟩
    ∧ isFiniteFloat .inf = false := by
  decide

/-- C3 (amended): construction rejects NaN entries — a NaN breaks the
symmetry comparison because `nan != nan` — so every successfully
constructed `DistanceMatrix` is NaN-free; the buffer is preserved unchanged
by the only mutating operation, the `sample_ids` setter.  (Infinite entries
are accepted; see the counterexample.) -/
theorem construction_no_nan (data : Mat) (ids : List Str) (m : DistanceMatrix)
    (hmk : mkDM data ids = .ok m) :
    (∀ row ∈ m.data, ∀ v ∈ row, v ≠ .nan)
    ∧ (∀ new m2, setSampleIds m new = .ok m2 → m2.data = m.data) := by
  obtain ⟨hrect, hval, hm⟩ := mkDM_ok_iff.mp hmk
  obtain ⟨-, -, hvalid, -⟩ := validate_none_iff.mp hval
  subst hm
  refine ⟨valid_no_nan hrect hvalid, ?_⟩
  intro new m2 hset
  unfold setSampleIds at hset
  split at hset
  · exact absurd hset (by simp)
  · cases hset
    rfl

/-- Witness for C3 (amended): NaN-freeness and buffer preservation on a
concrete matrix. -/
theorem construction_no_nan_witness :
    (match mkDM [[.fin 0]] [['a']] with
      | .ok m => (∀ row ∈ m.data, ∀ v ∈ row, v ≠ PyFloat.nan)
          ∧ (∀ new m2, setSampleIds m new = .ok m2 → m2.data = m.data)
      | .error _ => False) := by
  have hmk : mkDM [[.fin 0]] [['a']] = .ok ⟨[[.fin 0]], [['a']], [(['a'], 0)]⟩ := by
    decide
  rw [hmk]
  exact construction_no_nan _ _ _ hmk

/-! ## Claim C10: falsy sample IDs select the defaults -/

theorem ent_trilMirror {rand : Nat → Nat → ℚ} {n i j : Nat} (hi : i < n) (hj : j < n) :
    ent (trilMirror rand n) i j =
      .fin ((if j < i then rand i j else 0) + (if i < j then rand j i else 0)) := by
  have hi' : i < (trilMirror rand n).length := by simpa [trilMirror] using hi
  rw [ent, List.getD_eq_getElem _ _ hi']
  have hrow : (trilMirror rand n)[i] = (List.range n).map (fun j2 =>
      PyFloat.fin ((if j2 < i then rand i j2 else 0) + (if i < j2 then rand j2 i else 0))) := by
    simp [trilMirror]
  rw [hrow, List.getD_eq_getElem _ _ (by simpa using hj)]
  simp

/-- C10: for `n ≥ 1`, a falsy `sample_ids` argument such as the explicitly
empty sequence behaves exactly like an absent one — no label-count error is
raised: construction succeeds and the default IDs `'1'..str(n)` are used. -/
theorem random_falsy_ids_use_defaults (rand : Nat → Nat → ℚ) (n : Nat) (hn : 1 ≤ n) :
    random_distance_matrix rand n (some []) = random_distance_matrix rand n none
    ∧ ∃ m, random_distance_matrix rand n (some []) = .ok m
        ∧ m.sample_ids = defaultIds n := by
  have hlen0 : matShape0 (trilMirror rand n) = n := by simp [matShape0, trilMirror]
  have hlen1 : matShape1 (trilMirror rand n) = n := by
    rcases n with _ | m
    · omega
    · simp [matShape1, trilMirror, List.range_succ_eq_map]
  have hids_nd : (defaultIds n).Nodup := by
    have hinj : Function.Injective (fun i : Nat => natStr (i + 1)) := by
      intro a b hab
      have := natStr_injective hab
      omega
    exact (List.nodup_range n).map hinj
  have hrect : rectangular (trilMirror rand n) = true := by
    rw [rectangular, List.all_eq_true]
    intro r hr
    simp only [trilMirror, List.mem_map, List.mem_range] at hr
    obtain ⟨i, hi, rfl⟩ := hr
    simp [hlen1]
  have hvalid : is_valid_dm (trilMirror rand n) = true := by
    simp only [is_valid_dm, Bool.and_eq_true, decide_eq_true_eq, List.all_eq_true,
      List.mem_range, hlen0, hlen1]
    refine ⟨⟨trivial, ?_⟩, ?_⟩
    · intro i hi j hj
      rw [ent_trilMirror hi hj, ent_trilMirror hj hi]
      simp only [pyEq, decide_eq_true_eq]
      exact add_comm _ _
    · intro i hi
      rw [ent_trilMirror hi hi]
      simp [pyEq]
  have hval : validate (trilMirror rand n) (defaultIds n) = none := by
    apply validate_none_iff.mpr
    refine ⟨?_, ?_, hvalid, ?_⟩
    · rw [hlen0, hlen1]
      omega
    · rw [List.dedup_eq_self.mpr hids_nd]
    · rw [hlen0]
      simp [defaultIds]
  have hmk : mkDM (trilMirror rand n) (defaultIds n) =
      .ok ⟨trilMirror rand n, defaultIds n, index_list (defaultIds n)⟩ :=
    mkDM_ok_iff.mpr ⟨hrect, hval, rfl⟩
  exact ⟨rfl, ⟨_, hmk, rfl⟩⟩

/-- Witness for C10: a concrete draw with `n = 2` and an explicitly empty
ID sequence. -/
theorem random_falsy_ids_use_defaults_witness :
    random_distance_matrix (fun _ _ => (0 : ℚ)) 2 (some []) =
        random_distance_matrix (fun _ _ => (0 : ℚ)) 2 none
    ∧ ∃ m, random_distance_matrix (fun _ _ => (0 : ℚ)) 2 (some []) = .ok m
        ∧ m.sample_ids = defaultIds 2 :=
  random_falsy_ids_use_defaults (fun _ _ => (0 : ℚ)) 2 (by decide)

/-! ## Claim C1: write/read round trip -/

/-- C1 counterexample: the round trip fails for the comma delimiter even on
a valid 1x1 matrix.  `to_file` writes the header `",a"` with a leading
delimiter; `from_file` strips only whitespace, so the comma survives and
the header splits into the two sample IDs `""` and `"a"`, after which the
single data row `"a,0.0"` has 2 fields instead of the 3 now expected and
parsing fails with the malformed-row error for row 1. -/
theorem roundtrip_comma_fails :
    mkDM [[.fin 0]] [['a']] = .ok ⟨[[.fin 0]], [['a']], [(['a'], 0)]⟩
    ∧ roundTripOk ⟨[[.fin 0]], [['a']], [(['a'], 0)]⟩ [','] = false
    ∧ from_file_str (to_file_str ⟨[[.fin 0]], [['a']], [(['a'], 0)]⟩ [',']) [','] =
        .error (.badRowCount 1) := by
  decide

theorem pyWs_ne_of_false {c : Char} (h : isPyWs c = false) : c ≠ '\n' ∧ c ≠ '\t' := by
  constructor <;> (intro he; subst he; exact absurd h (by decide))

theorem startsHash_eq_false {c : Char} {u : Str} (h : c ≠ '#') :
    startsHash (c :: u) = false := by
  unfold startsHash
  split
  · rename_i heq
    cases heq
    exact absurd rfl h
  · rfl

theorem parseFloats_map_formatVal {row : List PyFloat}
    (h : ∀ v ∈ row, parseVal (formatVal v) = some v) :
    parseFloats (row.map formatVal) = some row := by
  induction row with
  | nil => rfl
  | cons v vs ih =>
    simp only [List.map_cons, parseFloats, h v (by simp),
      ih (fun w hw => h w (by simp [hw]))]

theorem pyEq_self_of_ne_nan {v : PyFloat} (h : v ≠ .nan) : pyEq v v = true := by
  cases v with
  | fin q => simp [pyEq]
  | inf => rfl
  | ninf => rfl
  | nan => exact absurd rfl h

theorem mem_zip_self {α : Type} {d : List α} {rr : α × α} (h : rr ∈ List.zip d d) :
    rr.1 = rr.2 ∧ rr.1 ∈ d := by
  induction d with
  | nil => simp at h
  | cons a t ih =>
    simp only [List.zip_cons_cons, List.mem_cons] at h
    rcases h with rfl | h2
    · exact ⟨rfl, by simp⟩
    · obtain ⟨h3, h4⟩ := ih h2
      exact ⟨h3, by simp [h4]⟩

theorem array_equal_self {d : Mat} (h : ∀ row ∈ d, ∀ v ∈ row, v ≠ .nan) :
    array_equal d d = true := by
  simp only [array_equal, Bool.and_eq_true, decide_eq_true_eq, List.all_eq_true]
  refine ⟨trivial, ?_⟩
  intro rr hrr
  obtain ⟨heq, hmem⟩ := mem_zip_self hrr
  refine ⟨by rw [heq], ?_⟩
  intro vv hvv
  rw [← heq] at hvv
  obtain ⟨heq2, hmem2⟩ := mem_zip_self hvv
  rw [← heq2]
  exact pyEq_self_of_ne_nan (h rr.1 hmem vv.1 hmem2)

theorem dm_eq_self {m : DistanceMatrix} (h : ∀ row ∈ m.data, ∀ v ∈ row, v ≠ .nan) :
    dm_eq m (toPyObj m) = true := by
  simp only [dm_eq, toPyObj]
  rw [if_neg (not_not_intro rfl), if_neg (not_not_intro rfl)]
  exact array_equal_self h

theorem joinD_decomp {d : Str} {P : Char → Prop} {parts : List Str} (hne : parts ≠ [])
    (h : ∀ p ∈ parts, p ≠ [] ∧ ∀ c ∈ p, P c) :
    ∃ c t u c2, joinD d parts = c :: t ∧ joinD d parts = u ++ [c2] ∧ P c ∧ P c2 := by
  obtain ⟨u, c2, hu, hc2⟩ := joinD_last_decomp hne h
  rcases parts with - | ⟨p, ps⟩
  · exact absurd rfl hne
  obtain ⟨hp, hpc⟩ := h p (by simp)
  rcases hp2 : p with - | ⟨c, t0⟩
  · exact absurd hp2 hp
  subst hp2
  obtain ⟨t, ht⟩ := joinD_head_cons (d := d) ps
  exact ⟨c, t, u, c2, ht, hu, hpc c (by simp), hc2⟩

theorem getD_of_drop_cons {ids : List Str} {idx : Nat} {id : Str} {rest : List Str}
    (h : ids.drop idx = id :: rest) : ids.getD idx [] = id := by
  have hlt : idx < ids.length := by
    by_contra hge
    rw [List.drop_eq_nil_of_le (by omega)] at h
    exact absurd h (by simp)
  have h0 : (ids.drop idx).getD 0 [] = id := by rw [h]; rfl
  rw [List.getD_eq_getElem _ _ (by rw [h]; simp)] at h0
  rw [List.getD_eq_getElem _ _ hlt, ← h0, List.getElem_drop]
  simp

theorem mem_zipWith {α β γ : Type} {f : α → β → γ} {l1 : List α} {l2 : List β} {x : γ}
    (h : x ∈ List.zipWith f l1 l2) : ∃ a ∈ l1, ∃ b ∈ l2, x = f a b := by
  induction l1 generalizing l2 with
  | nil => simp at h
  | cons a t ih =>
    cases l2 with
    | nil => simp at h
    | cons b t2 =>
      simp only [List.zipWith_cons_cons, List.mem_cons] at h
      rcases h with rfl | h2
      · exact ⟨a, by simp, b, by simp, rfl⟩
      · obtain ⟨a2, ha, b2, hb, rfl⟩ := ih h2
        exact ⟨a2, by simp [ha], b2, by simp [hb], rfl⟩

theorem parseRows_skip_nil (d : Str) (sids : List Str) (rest : List Str)
    (idx : Nat) (acc : Mat) :
    parseRows d sids ([] :: rest) idx acc = parseRows d sids rest idx acc := by
  simp only [parseRows]
  rfl

theorem parseRows_all_good {ids : List Str}
    (hid : ∀ id ∈ ids, id ≠ [] ∧ ∀ c ∈ id, isPyWs c = false ∧ c ≠ '#') :
    ∀ (rows : Mat) (ids2 : List Str) (idx : Nat) (acc : Mat),
    ids.drop idx = ids2 →
    idx ≤ ids.length →
    rows.length = ids2.length →
    (∀ row ∈ rows, row.length = ids.length) →
    (∀ row ∈ rows, ∀ v ∈ row, parseVal (formatVal v) = some v) →
    parseRows ['\t'] ids
      (List.zipWith (fun sid row => sid ++ ['\t'] ++ joinD ['\t'] (row.map formatVal))
        ids2 rows ++ [[]]) idx acc
      = .ok (acc.reverse ++ rows) := by
  intro rows
  induction rows with
  | nil =>
    intro ids2 idx acc hdrop hle hlen hrl hpv
    have hids2 : ids2 = [] := by
      cases ids2 with
      | nil => rfl
      | cons a b => simp at hlen
    subst hids2
    have hidx : idx = ids.length := by
      have hcong := congrArg List.length hdrop
      simp only [List.length_drop, List.length_nil] at hcong
      omega
    rw [List.zipWith_nil_right, List.nil_append, parseRows_skip_nil]
    simp only [parseRows, if_neg (not_not_intro hidx)]
    simp
  | cons row rows' ih =>
    intro ids2 idx acc hdrop hle hlen hrl hpv
    rcases ids2 with - | ⟨id, ids2'⟩
    · simp at hlen
    have hidlt : idx < ids.length := by
      have hcong := congrArg List.length hdrop
      simp only [List.length_drop, List.length_cons] at hcong
      omega
    have hid_mem : id ∈ ids := by
      have hmem : id ∈ ids.drop idx := by rw [hdrop]; simp
      exact List.mem_of_mem_drop hmem
    obtain ⟨hidne, hidchars⟩ := hid id hid_mem
    have hrowlen : row.length = ids.length := hrl row (by simp)
    have hrowne : row ≠ [] := by
      intro h0
      rw [h0] at hrowlen
      simp at hrowlen
      omega
    have hmapne : row.map formatVal ≠ [] := by
      intro h0
      exact hrowne (List.map_eq_nil_iff.mp h0)
    have hparts : ∀ p ∈ id :: row.map formatVal,
        p ≠ [] ∧ ∀ c ∈ p, isPyWs c = false ∧ c ≠ '#' := by
      intro p hp
      rcases List.mem_cons.mp hp with rfl | hp2
      · exact ⟨hidne, hidchars⟩
      · simp only [List.mem_map] at hp2
        obtain ⟨v, -, rfl⟩ := hp2
        refine ⟨formatVal_ne_nil v, fun c hc => ?_⟩
        obtain ⟨h1, h2⟩ := formatVal_tame hc
        exact ⟨by simpa using h1, h2⟩
    have hline_eq : id ++ ['\t'] ++ joinD ['\t'] (row.map formatVal)
        = joinD ['\t'] (id :: row.map formatVal) := by
      rw [joinD_cons _ _ hmapne]
    obtain ⟨c, t, u, c2, hct, huc2, hPc, hPc2⟩ :=
      joinD_decomp (d := ['\t']) (by simp : id :: row.map formatVal ≠ []) hparts
    have hstrip : pyStrip (joinD ['\t'] (id :: row.map formatVal)) =
        joinD ['\t'] (id :: row.map formatVal) := by
      rw [hct]
      exact pyStrip_eq_self (by simp [hPc.1]) (by simp [hPc2.1]) (hct ▸ huc2)
    have hstrip_ne : pyStrip (joinD ['\t'] (id :: row.map formatVal)) ≠ [] := by
      rw [hstrip, hct]
      simp
    have htokens : pySplit ['\t'] (joinD ['\t'] (id :: row.map formatVal))
        = id :: row.map formatVal := by
      refine pySplit_joinD_single (by simp) ?_
      intro p hp hmem
      obtain ⟨-, hchars⟩ := hparts p hp
      exact absurd (hchars '\t' hmem).1 (by decide)
    have hcount2 : (pySplit ['\t'] (pyStrip (joinD ['\t'] (id :: row.map formatVal)))).length
        = ids.length + 1 := by
      rw [hstrip, htokens]
      simp [hrowlen]
    have hhead2 : (pySplit ['\t'] (pyStrip (joinD ['\t'] (id :: row.map formatVal)))).headD []
        = ids.getD idx [] := by
      rw [hstrip, htokens, getD_of_drop_cons hdrop]
      rfl
    have hfloats : parseFloats
        ((pySplit ['\t'] (pyStrip (joinD ['\t'] (id :: row.map formatVal)))).drop 1)
        = some row := by
      rw [hstrip, htokens]
      exact parseFloats_map_formatVal (hpv row (by simp))
    rw [List.zipWith_cons_cons, hline_eq, List.cons_append]
    have hstep : parseRows ['\t'] ids
        (joinD ['\t'] (id :: row.map formatVal) ::
          (List.zipWith (fun sid row => sid ++ ['\t'] ++ joinD ['\t'] (row.map formatVal))
            ids2' rows' ++ [[]])) idx acc
        = parseRows ['\t'] ids
          (List.zipWith (fun sid row => sid ++ ['\t'] ++ joinD ['\t'] (row.map formatVal))
            ids2' rows' ++ [[]]) (idx + 1) (row :: acc) := by
      simp only [parseRows, if_neg hstrip_ne, if_neg (by omega : ¬ ids.length ≤ idx),
        if_neg (not_not_intro hcount2), if_pos hhead2, hfloats]
    rw [hstep]
    have hdrop2 : ids.drop (idx + 1) = ids2' := by
      have h1 : List.drop 1 (List.drop idx ids) = List.drop (idx + 1) ids := by
        rw [List.drop_drop]
      rw [← h1, hdrop]
      rfl
    have hrec := ih ids2' (idx + 1) (row :: acc) hdrop2 (by omega)
      (by simpa using hlen) (fun r hr => hrl r (by simp [hr]))
      (fun r hr => hpv r (by simp [hr]))
    rw [hrec]
    simp

/-- C1 (amended): the write/read round trip yields a matrix comparing equal
(`==`) to the original for the default tab delimiter, for every constructed
matrix whose sample IDs are nonempty and contain neither whitespace nor
`'#'`, and whose entries' written text parses back to the same value (exact
for the embedding's decimal printer; for IEEE floats this is the fidelity
of `str`/`float`).  The restriction to the tab delimiter is forced: the
writer emits a leading delimiter before the header and the reader strips
only whitespace, so a non-whitespace delimiter such as `','` breaks the
round trip (see the counterexample), as do IDs containing whitespace, the
delimiter itself, or a leading `'#'`. -/
theorem roundtrip_tab (data : Mat) (ids : List Str) (m : DistanceMatrix)
    (hmk : mkDM data ids = .ok m)
    (hid : ∀ id ∈ ids, id ≠ [] ∧ ∀ c ∈ id, isPyWs c = false ∧ c ≠ '#')
    (hvals : ∀ row ∈ data, ∀ v ∈ row, parseVal (formatVal v) = some v) :
    roundTripOk m ['\t'] = true := by
  obtain ⟨hrect, hval, hm⟩ := mkDM_ok_iff.mp hmk
  obtain ⟨hsz, hdedup, hvalid, hcount⟩ := validate_none_iff.mp hval
  obtain ⟨hsq, -, -⟩ := is_valid_dm_spec hvalid
  push_neg at hsz
  have hn1 : 1 ≤ ids.length := by
    rw [hcount]
    have := hsz.1
    omega
  have hids_ne : ids ≠ [] := by
    intro h0
    rw [h0] at hn1
    simp at hn1
  have hdatalen : data.length = ids.length := hcount.symm
  have hrowlen : ∀ row ∈ data, row.length = ids.length := by
    intro row hrow
    rw [hcount, hsq]
    exact rectangular_spec hrect row hrow
  have hm_ids : m.sample_ids = ids := by rw [hm]
  have hm_data : m.data = data := by rw [hm]
  obtain ⟨c, t, u, c2, hct, huc2, hPc, hPc2⟩ :=
    joinD_decomp (d := ['\t']) hids_ne hid
  have hheader : format_sample_ids m ['\t'] = '\t' :: joinD ['\t'] ids := by
    rw [format_sample_ids, hm_ids, joinD_cons _ _ hids_ne]
    rfl
  have hstripH : pyStrip (format_sample_ids m ['\t']) = joinD ['\t'] ids := by
    rw [hheader, hct]
    exact pyStrip_ws_cons (by decide) (by simp [hPc.1]) (by simp [hPc2.1]) (hct ▸ huc2)
  have hsplitH : pySplit ['\t'] (joinD ['\t'] ids) = ids := by
    refine pySplit_joinD_single hids_ne ?_
    intro p hp hmem
    exact absurd ((hid p hp).2 '\t' hmem).1 (by decide)
  have hnotin : ∀ p ∈ to_file_lines m ['\t'] ++ [[]], '\n' ∉ p := by
    intro p hp hmem
    rcases List.mem_append.mp hp with hp1 | hp2
    · rw [to_file_lines] at hp1
      rcases List.mem_cons.mp hp1 with rfl | hp3
      · rw [hheader] at hmem
        rcases List.mem_cons.mp hmem with h | h
        · exact absurd h (by decide)
        · rcases mem_joinD h with h2 | ⟨q, hq, hcq⟩
          · exact absurd h2 (by decide)
          · exact absurd ((hid q hq).2 '\n' hcq).1 (by decide)
      · obtain ⟨sid, hsid, row, hrow, rfl⟩ := mem_zipWith hp3
        rw [hm_ids] at hsid
        rw [hm_data] at hrow
        rcases List.mem_append.mp hmem with h4 | h5
        · rcases List.mem_append.mp h4 with h6 | h7
          · exact absurd ((hid sid hsid).2 '\n' h6).1 (by decide)
          · exact absurd h7 (by decide)
        · rcases mem_joinD h5 with h8 | ⟨q, hq, hcq⟩
          · exact absurd h8 (by decide)
          · simp only [List.mem_map] at hq
            obtain ⟨v, -, rfl⟩ := hq
            exact (formatVal_tame hcq).1 (by decide)
    · simp only [List.mem_singleton] at hp2
      subst hp2
      simp at hmem
  have hsplitlines : pySplit ['\n'] (to_file_str m ['\t']) =
      to_file_lines m ['\t'] ++ [[]] := by
    rw [to_file_str, flatten_map_append_single]
    exact pySplit_joinD_single (by simp [to_file_lines]) hnotin
  have hlines : to_file_lines m ['\t'] ++ [[]] = format_sample_ids m ['\t'] ::
      (List.zipWith (fun sid row => sid ++ ['\t'] ++ joinD ['\t'] (row.map formatVal))
        ids data ++ [[]]) := by
    rw [to_file_lines, hm_ids, hm_data]
    rfl
  have hps : parse_sample_ids ['\t'] (to_file_lines m ['\t'] ++ [[]]) =
      some (ids,
        List.zipWith (fun sid row => sid ++ ['\t'] ++ joinD ['\t'] (row.map formatVal))
          ids data ++ [[]]) := by
    rw [hlines]
    have hcond : joinD ['\t'] ids ≠ [] ∧ ¬ startsHash (joinD ['\t'] ids) = true := by
      constructor
      · rw [hct]
        simp
      · rw [hct, startsHash_eq_false hPc.2]
        simp
    simp only [parse_sample_ids, hstripH, hsplitH]
    rw [if_pos hcond]
  have hrows := parseRows_all_good hid data ids 0 [] (List.drop_zero ids) (by omega)
    hdatalen hrowlen hvals
  have hff : from_file_str (to_file_str m ['\t']) ['\t'] = .ok m := by
    rw [from_file_str, hsplitlines, from_file, hps]
    simp only [hrows, List.reverse_nil, List.nil_append]
    exact hmk
  unfold roundTripOk
  rw [hff]
  show dm_eq m (toPyObj m) = true
  refine dm_eq_self ?_
  rw [hm_data]
  exact valid_no_nan hrect hvalid

/-- Witness for C1 (amended): a concrete 2x2 matrix with a fractional
entry round-trips through the tab-delimited text format. -/
theorem roundtrip_tab_witness :
    (match mkDM [[.fin 0, .fin (qMake false 3 2)], [.fin (qMake false 3 2), .fin 0]]
        [['a'], ['b']] with
      | .ok m => roundTripOk m ['\t'] = true
      | .error _ => False) := by
  have hmk : mkDM [[.fin 0, .fin (qMake false 3 2)], [.fin (qMake false 3 2), .fin 0]]
      [['a'], ['b']] =
      .ok ⟨[[.fin 0, .fin (qMake false 3 2)], [.fin (qMake false 3 2), .fin 0]],
        [['a'], ['b']], [(['a'], 0), (['b'], 1)]⟩ := by
    decide
  rw [hmk]
  exact roundtrip_tab _ _ _ hmk (by decide) (by decide)
